import Mathlib

/-!
Verification of `github_tools`.

A shallow embedding of the core of `github_tools/__init__.py`:

* the PR review collector `get_reviews` (team filtering, repository
  deduplication, per-PR assignee and age checks, accumulation into a
  `defaultdict(set)` keyed by assignee login);
* the diff-line classifier `is_changed_diff_line` and the escaped-newline
  normalization step of `GHPRSession.get_diff`;
* credential resolution `_get_credentials`;
* the HTTP status handling of `GHPRSession.request` / `post_comment`;
* the assignee update of `assign_pr`.

Modeling conventions:

* Opaque identifiers (logins, titles, URLs, repository names) are `String`;
  only equality on them is ever used.  Text that the code inspects
  character by character (team names matched by `str.startswith`, diff
  text) is modeled as `List Char`.
* Timestamps are integer seconds; the module-level constant `NOW` becomes
  an explicit `now` parameter, so `(NOW - pull.updated_at).total_seconds()`
  becomes `now - pull.updated_at`.
* A Python `set` is modeled as a duplicate-free list, built with a
  membership-guarded insert; a `defaultdict(set)` is an association list
  whose lookup returns `[]` for missing keys.
* Exceptions (`assert`, `requests` raising on error statuses) are modeled
  with `Option` / `Except`.
-/

namespace GithubTools

/-- Python's `str.startswith(p)` on text modeled as character lists:
`startswith l p` holds iff `p` is an initial segment of `l`. -/
def startswith : List Char → List Char → Bool
  | _, [] => true
  | [], _ :: _ => false
  | c :: cs, p :: ps => c == p && startswith cs ps

/-! ## Data model

`PullRequest` is the read-only view of a pull request used by
`get_reviews`: `pull.title`, `pull.html_url`, `pull.user.login`,
`{x.login for x in pull.assignees}` (we keep the raw login list and take
the set explicitly), `pull.updated_at` and `pull.state`. -/

structure PullRequest where
  title : String
  html_url : String
  user_login : String
  assignees : List String
  updated_at : Int
  state : String
deriving DecidableEq

/-- A repository: an identity (standing for the GitHub repo object used for
set-deduplication) together with its pull requests. -/
structure Repository where
  rid : Nat
  pull_requests : List PullRequest
deriving DecidableEq

/-- A team: its name (inspected by `str.startswith`) and its repositories. -/
structure Team where
  name : List Char
  repositories : List Repository
deriving DecidableEq

/-! ## Sets and the ReviewMap

`reviews = collections.defaultdict(set)` maps assignee logins to sets of
`(title, html_url)` pairs. -/

/-- A Python set of `(title, url)` pairs, as a duplicate-free list. -/
abbrev ReviewSet := List (String × String)

/-- `s.add v`: membership-guarded insert, Python's `set.add`. -/
def setAdd (s : ReviewSet) (v : String × String) : ReviewSet :=
  if v ∈ s then s else s ++ [v]

/-- `defaultdict(set)` keyed by assignee login, as an association list. -/
abbrev ReviewMap := List (String × ReviewSet)

/-- `reviews[k].add(v)`: update the entry of `k` in place, or append a fresh
singleton entry when `k` has no entry yet (the `defaultdict` behavior). -/
def mapAdd : ReviewMap → String → (String × String) → ReviewMap
  | [], k, v => [(k, [v])]
  | (k', s) :: rest, k, v =>
    if k' = k then (k', setAdd s v) :: rest else (k', s) :: mapAdd rest k v

/-- `reviews[k]` read back: the entry of `k`, `[]` when absent. -/
def lookup : ReviewMap → String → ReviewSet
  | [], _ => []
  | (k', s) :: rest, k => if k' = k then s else lookup rest k

/-- The keys of a `ReviewMap`. -/
def keys (m : ReviewMap) : List String := m.map Prod.fst

/-! ## The PR review collector -/

/-- `{x.login for x in pull.assignees}` as a duplicate-free list. -/
def assigneeSet (pull : PullRequest) : List String := pull.assignees.dedup

/-- Python set equality of two lists of logins (`{author} != assignees`
compares sets, so membership is what matters). -/
def eqSet (l₁ l₂ : List String) : Bool :=
  l₁.all l₂.contains && l₂.all l₁.contains

/-- The loop body of `get_reviews` for one pull request:
skip on empty assignee set; otherwise, when the assignee set is not the
author singleton and the PR is older than `pr_age`, add `(title, html_url)`
to every assignee's entry. -/
def processPull (now pr_age : Int) (m : ReviewMap) (pull : PullRequest) : ReviewMap :=
  if assigneeSet pull = [] then m
  else if eqSet [pull.user_login] (assigneeSet pull) = false ∧
      now - pull.updated_at > pr_age then
    (assigneeSet pull).foldl (fun acc a => mapAdd acc a (pull.title, pull.html_url)) m
  else m

/-- `(x for x in repo.pull_requests() if x.state == "open")`. -/
def openPulls (repo : Repository) : List PullRequest :=
  repo.pull_requests.filter (fun p => p.state = "open")

/-- The loop body of `get_reviews` for one repository. -/
def processRepo (now pr_age : Int) (m : ReviewMap) (repo : Repository) : ReviewMap :=
  (openPulls repo).foldl (processPull now pr_age) m

/-- `(x for x in org.teams() if x.name.startswith(name_filter))`. -/
def keptTeams (teams : List Team) (name_filter : List Char) : List Team :=
  teams.filter (fun t => startswith t.name name_filter)

/-- `repos = set(); for team in kept: repos.update(team.repositories())` —
the union of the kept teams' repositories, deduplicated by repository
identity. -/
def reposOf (teams : List Team) (name_filter : List Char) : List Repository :=
  ((keptTeams teams name_filter).foldl (fun acc t => acc ++ t.repositories) []).dedup

/-- `get_reviews`: collect open reviews for an organization, given as its
team list. `now` stands for the module constant `NOW`. -/
def get_reviews (teams : List Team) (now pr_age : Int) (name_filter : List Char) :
    ReviewMap :=
  (reposOf teams name_filter).foldl (processRepo now pr_age) []

/-! ## Diff handling -/

/-- `is_changed_diff_line(line)`: `line.startswith(("+", "-"))`. -/
def is_changed_diff_line (line : List Char) : Bool :=
  startswith line ['+'] || startswith line ['-']

/-- The normalization step of `GHPRSession.get_diff`:
`diff.replace("\\n", "\n")`, Python's leftmost, non-overlapping
replacement of the two-character sequence `\` `n` by a newline. -/
def replaceEscapedNewlines : List Char → List Char
  | [] => []
  | [c] => [c]
  | c₁ :: c₂ :: rest =>
    if c₁ = '\\' ∧ c₂ = 'n' then '\n' :: replaceEscapedNewlines rest
    else c₁ :: replaceEscapedNewlines (c₂ :: rest)

/-- Whether the two-character escape sequence `\` `n` occurs in the text. -/
def containsEscNL : List Char → Bool
  | [] => false
  | [_] => false
  | c₁ :: c₂ :: rest => (c₁ == '\\' && c₂ == 'n') || containsEscNL (c₂ :: rest)

/-! ## Credential resolution -/

/-- `GH_TOKEN_ENV_KEY = "GH_TOKEN"`. -/
def GH_TOKEN_ENV_KEY : String := "GH_TOKEN"

/-- Python truthiness of an optional string: `None` and `""` are falsy. -/
def pyTruthy : Option String → Bool
  | none => false
  | some s => s ≠ ""

/-- Python's `a or b` on optional strings: `b` when `a` is falsy. -/
def pyOr (a b : Option String) : Option String :=
  if pyTruthy a then a else b

/-- `_get_credentials(token=None)`:
`token = token or os.getenv(GH_TOKEN_ENV_KEY, None); assert token`.
The environment is a map from variable names to optional values; the
result is `none` exactly when the `assert` fires, else the token
wrapped as the credentials value. -/
def _get_credentials (token : Option String) (env : String → Option String) :
    Option String :=
  let token := pyOr token (env GH_TOKEN_ENV_KEY)
  if pyTruthy token then token else none

/-! ## PR assignment -/

/-- The mutable state of an issue/PR that `assign_pr` touches: its
assignee logins. -/
structure IssueState where
  assignees : List String
deriving DecidableEq

/-- `pr.edit(assignees=...)`: GitHub's issue-edit endpoint replaces the
assignee list with the one provided. -/
def IssueState.edit (_pr : IssueState) (new_assignees : List String) : IssueState :=
  { assignees := new_assignees }

/-- `assign_pr` after credential and API resolution:
`current_assignees = {u.login for u in pr.assignees} if keep_current else set()`
then `pr.edit(assignees=list(current_assignees.union(users)))`. -/
def assign_pr (pr : IssueState) (users : List String) (keep_current : Bool) :
    IssueState :=
  let current_assignees := if keep_current then pr.assignees.dedup else []
  pr.edit (current_assignees ++ users).dedup

/-! ## HTTP session -/

/-- A minimal HTTP response: its status code and body. -/
structure HttpResponse where
  status : Nat
  body : String
deriving DecidableEq

/-- 2xx success statuses. -/
def is2xx (status : Nat) : Prop := 200 ≤ status ∧ status < 300

/-- `requests.Response.raise_for_status()`: raises `HTTPError` exactly for
the 4xx client-error and 5xx server-error status codes; any other status
returns the response unchanged. -/
def raise_for_status (r : HttpResponse) : Except Nat HttpResponse :=
  if 400 ≤ r.status ∧ r.status < 600 then Except.error r.status else Except.ok r

/-- `urllib.parse.urljoin`, restricted to the two shapes this code uses:
an absolute URL replaces the base, a relative path is resolved against the
base (which by construction ends in a single slash). -/
def urljoin (base url : String) : String :=
  if startswith url.toList "https://".toList then url else base ++ url

/-- A `GHPRSession` together with its transport: `send method url` is the
response the network returns for one issued request. -/
structure GHPRSession where
  base_url : String
  send : String → String → HttpResponse

/-- `GHPRSession.request`: resolve the URL against `base_url`, place the
request exactly once, `raise_for_status`, and return the response. -/
def GHPRSession.request (s : GHPRSession) (method url : String) :
    Except Nat HttpResponse :=
  raise_for_status (s.send method (urljoin s.base_url url))

/-- `GHPRSession.post_comment`: `self.post("comments", json=...)`. -/
def GHPRSession.post_comment (s : GHPRSession) (_comment_body : String) :
    Except Nat HttpResponse :=
  s.request "POST" "comments"

/-! ## Derived notions used by the statements -/

/-- What it takes for one pull request to contribute the pair `w` to the
entry of login `a` (everything `processPull` checks except openness, which
is filtered at the repository level). -/
def contributes (now pr_age : Int) (pull : PullRequest) (a : String)
    (w : String × String) : Prop :=
  a ∈ assigneeSet pull ∧
  eqSet [pull.user_login] (assigneeSet pull) = false ∧
  now - pull.updated_at > pr_age ∧
  w = (pull.title, pull.html_url)

/-- The well-formedness invariant of a `ReviewMap`: keys are pairwise
distinct and each entry is a duplicate-free set. -/
def WF (m : ReviewMap) : Prop :=
  (keys m).Nodup ∧ ∀ e ∈ m, (Prod.snd e).Nodup

/-- A two-step structural induction principle matching the recursion of
`replaceEscapedNewlines` and `containsEscNL`. -/
def twoStepRecursion {P : List Char → Prop} (h0 : P []) (h1 : ∀ c, P [c])
    (h2 : ∀ c₁ c₂ rest, P rest → P (c₂ :: rest) → P (c₁ :: c₂ :: rest)) :
    ∀ l, P l
  | [] => h0
  | [c] => h1 c
  | c₁ :: c₂ :: rest =>
    h2 c₁ c₂ rest (twoStepRecursion h0 h1 h2 rest)
      (twoStepRecursion h0 h1 h2 (c₂ :: rest))

/-! ## Lemmas about sets and the ReviewMap -/

theorem mem_setAdd {s : ReviewSet} {v w : String × String} :
    w ∈ setAdd s v ↔ w ∈ s ∨ w = v := by
  unfold setAdd
  split
  · rename_i hv
    constructor
    · exact Or.inl
    · rintro (h | rfl)
      · exact h
      · exact hv
  · simp

theorem nodup_setAdd {s : ReviewSet} {v : String × String} (h : s.Nodup) :
    (setAdd s v).Nodup := by
  unfold setAdd
  split
  · exact h
  · rename_i hv
    rw [List.nodup_append]
    refine ⟨h, List.nodup_singleton v, ?_⟩
    intro x hx hxv
    rw [List.mem_singleton] at hxv
    exact hv (hxv ▸ hx)

theorem lookup_mapAdd (m : ReviewMap) (k : String) (v : String × String) (a : String) :
    lookup (mapAdd m k v) a =
      if a = k then setAdd (lookup m k) v else lookup m a := by
  induction m with
  | nil =>
    by_cases h : a = k
    · subst h
      simp [mapAdd, lookup, setAdd]
    · have h₂ : ¬ k = a := fun e => h e.symm
      simp [mapAdd, lookup, h, h₂]
  | cons p rest ih =>
    obtain ⟨k₀, s₀⟩ := p
    simp only [mapAdd]
    by_cases hk : k₀ = k
    · subst hk
      rw [if_pos rfl]
      by_cases ha : a = k₀
      · subst ha
        simp [lookup]
      · have h₂ : ¬ k₀ = a := fun e => ha e.symm
        simp [lookup, ha, h₂]
    · rw [if_neg hk]
      by_cases ha : a = k₀
      · subst ha
        have h₁ : ¬ a = k := hk
        simp [lookup, h₁]
      · have h₂ : ¬ k₀ = a := fun e => ha e.symm
        simp [lookup, h₂, hk, ih]

theorem mem_lookup_mapAdd {m : ReviewMap} {k : String} {v w : String × String}
    {a : String} :
    w ∈ lookup (mapAdd m k v) a ↔ w ∈ lookup m a ∨ (a = k ∧ w = v) := by
  rw [lookup_mapAdd]
  by_cases h : a = k
  · subst h
    simp [mem_setAdd]
  · simp [h]

theorem mem_lookup_foldl_mapAdd (ks : List String) (m : ReviewMap)
    (v w : String × String) (a : String) :
    w ∈ lookup (ks.foldl (fun acc x => mapAdd acc x v) m) a ↔
      w ∈ lookup m a ∨ (a ∈ ks ∧ w = v) := by
  induction ks generalizing m with
  | nil => simp
  | cons x ks ih =>
    simp only [List.foldl_cons, ih, mem_lookup_mapAdd, List.mem_cons]
    constructor
    · rintro ((h | ⟨rfl, rfl⟩) | ⟨hx, rfl⟩)
      · exact Or.inl h
      · exact Or.inr ⟨Or.inl rfl, rfl⟩
      · exact Or.inr ⟨Or.inr hx, rfl⟩
    · rintro (h | ⟨rfl | hx, rfl⟩)
      · exact Or.inl (Or.inl h)
      · exact Or.inl (Or.inr ⟨rfl, rfl⟩)
      · exact Or.inr ⟨hx, rfl⟩

theorem mem_lookup_processPull {now pr_age : Int} {m : ReviewMap}
    {pull : PullRequest} {a : String} {w : String × String} :
    w ∈ lookup (processPull now pr_age m pull) a ↔
      w ∈ lookup m a ∨ contributes now pr_age pull a w := by
  unfold processPull contributes
  split
  · rename_i hemp
    simp [hemp]
  · split
    · rename_i hcond
      rw [mem_lookup_foldl_mapAdd]
      constructor
      · rintro (h | ⟨ha, rfl⟩)
        · exact Or.inl h
        · exact Or.inr ⟨ha, hcond.1, hcond.2, rfl⟩
      · rintro (h | ⟨ha, _, _, rfl⟩)
        · exact Or.inl h
        · exact Or.inr ⟨ha, rfl⟩
    · rename_i hcond
      constructor
      · exact Or.inl
      · rintro (h | ⟨ha, hne, hage, rfl⟩)
        · exact h
        · exact absurd ⟨hne, hage⟩ hcond

theorem mem_lookup_foldl_processPull (pulls : List PullRequest)
    {now pr_age : Int} (m : ReviewMap) {a : String} {w : String × String} :
    w ∈ lookup (pulls.foldl (processPull now pr_age) m) a ↔
      w ∈ lookup m a ∨ ∃ p ∈ pulls, contributes now pr_age p a w := by
  induction pulls generalizing m with
  | nil => simp
  | cons x pulls ih =>
    simp only [List.foldl_cons, ih, mem_lookup_processPull, List.mem_cons]
    constructor
    · rintro ((h | hx) | ⟨p, hp, hc⟩)
      · exact Or.inl h
      · exact Or.inr ⟨x, Or.inl rfl, hx⟩
      · exact Or.inr ⟨p, Or.inr hp, hc⟩
    · rintro (h | ⟨p, rfl | hp, hc⟩)
      · exact Or.inl (Or.inl h)
      · exact Or.inl (Or.inr hc)
      · exact Or.inr ⟨p, hp, hc⟩

theorem mem_lookup_processRepo {now pr_age : Int} {m : ReviewMap}
    {repo : Repository} {a : String} {w : String × String} :
    w ∈ lookup (processRepo now pr_age m repo) a ↔
      w ∈ lookup m a ∨
        ∃ p ∈ repo.pull_requests, p.state = "open" ∧ contributes now pr_age p a w := by
  unfold processRepo
  rw [mem_lookup_foldl_processPull]
  simp only [openPulls, List.mem_filter, decide_eq_true_eq]
  constructor
  · rintro (h | ⟨p, ⟨hp, hs⟩, hc⟩)
    · exact Or.inl h
    · exact Or.inr ⟨p, hp, hs, hc⟩
  · rintro (h | ⟨p, hp, hs, hc⟩)
    · exact Or.inl h
    · exact Or.inr ⟨p, ⟨hp, hs⟩, hc⟩

theorem mem_lookup_foldl_processRepo (repos : List Repository)
    {now pr_age : Int} (m : ReviewMap) {a : String} {w : String × String} :
    w ∈ lookup (repos.foldl (processRepo now pr_age) m) a ↔
      w ∈ lookup m a ∨
        ∃ r ∈ repos, ∃ p ∈ r.pull_requests, p.state = "open" ∧
          contributes now pr_age p a w := by
  induction repos generalizing m with
  | nil => simp
  | cons x repos ih =>
    simp only [List.foldl_cons, ih, mem_lookup_processRepo, List.mem_cons]
    constructor
    · rintro ((h | hx) | ⟨r, hr, hrest⟩)
      · exact Or.inl h
      · exact Or.inr ⟨x, Or.inl rfl, hx⟩
      · exact Or.inr ⟨r, Or.inr hr, hrest⟩
    · rintro (h | ⟨r, rfl | hr, hrest⟩)
      · exact Or.inl (Or.inl h)
      · exact Or.inl (Or.inr hrest)
      · exact Or.inr ⟨r, hr, hrest⟩

theorem mem_foldl_append (ts : List Team) (acc : List Repository) (r : Repository) :
    r ∈ ts.foldl (fun acc t => acc ++ t.repositories) acc ↔
      r ∈ acc ∨ ∃ t ∈ ts, r ∈ t.repositories := by
  induction ts generalizing acc with
  | nil => simp
  | cons x ts ih =>
    simp only [List.foldl_cons, ih, List.mem_append, List.mem_cons]
    constructor
    · rintro ((h | hx) | ⟨t, ht, hr⟩)
      · exact Or.inl h
      · exact Or.inr ⟨x, Or.inl rfl, hx⟩
      · exact Or.inr ⟨t, Or.inr ht, hr⟩
    · rintro (h | ⟨t, rfl | ht, hr⟩)
      · exact Or.inl (Or.inl h)
      · exact Or.inl (Or.inr hr)
      · exact Or.inr ⟨t, ht, hr⟩

theorem mem_keptTeams {teams : List Team} {name_filter : List Char} {t : Team} :
    t ∈ keptTeams teams name_filter ↔
      t ∈ teams ∧ startswith t.name name_filter = true := by
  simp [keptTeams, List.mem_filter]

theorem mem_reposOf {teams : List Team} {name_filter : List Char} {r : Repository} :
    r ∈ reposOf teams name_filter ↔
      ∃ t ∈ teams, startswith t.name name_filter = true ∧ r ∈ t.repositories := by
  unfold reposOf
  rw [List.mem_dedup, mem_foldl_append]
  simp only [List.not_mem_nil, false_or, mem_keptTeams]
  constructor
  · rintro ⟨t, ⟨ht, hs⟩, hr⟩
    exact ⟨t, ht, hs, hr⟩
  · rintro ⟨t, ht, hs, hr⟩
    exact ⟨t, ⟨ht, hs⟩, hr⟩

/-- The membership characterization of the collector: a pair is recorded
under login `a` exactly when some kept team has a repository with an open
pull request contributing it. -/
theorem mem_lookup_get_reviews {teams : List Team} {now pr_age : Int}
    {name_filter : List Char} {a : String} {w : String × String} :
    w ∈ lookup (get_reviews teams now pr_age name_filter) a ↔
      ∃ t ∈ teams, startswith t.name name_filter = true ∧
        ∃ r ∈ t.repositories, ∃ p ∈ r.pull_requests, p.state = "open" ∧
          contributes now pr_age p a w := by
  unfold get_reviews
  rw [mem_lookup_foldl_processRepo]
  simp only [lookup, List.not_mem_nil, false_or]
  constructor
  · rintro ⟨r, hr, rest⟩
    obtain ⟨t, ht, hs, hrt⟩ := mem_reposOf.mp hr
    exact ⟨t, ht, hs, r, hrt, rest⟩
  · rintro ⟨t, ht, hs, r, hrt, rest⟩
    exact ⟨r, mem_reposOf.mpr ⟨t, ht, hs, hrt⟩, rest⟩

/-! ## Skip lemmas: when a pull request contributes nothing -/

theorem processPull_skip_of_self {now pr_age : Int} {m : ReviewMap}
    {pull : PullRequest}
    (h : eqSet [pull.user_login] (assigneeSet pull) = true) :
    processPull now pr_age m pull = m := by
  unfold processPull
  split
  · rfl
  · rw [if_neg]
    rintro ⟨hne, -⟩
    rw [h] at hne
    simp at hne

theorem processPull_skip_of_young {now pr_age : Int} {m : ReviewMap}
    {pull : PullRequest} (h : now - pull.updated_at ≤ pr_age) :
    processPull now pr_age m pull = m := by
  unfold processPull
  split
  · rfl
  · rw [if_neg]
    rintro ⟨-, hage⟩
    exact absurd hage (not_lt.mpr h)

/-! ## Well-formedness of the produced ReviewMap -/

theorem mapAdd_cons_self (k : String) (s : ReviewSet) (rest : ReviewMap)
    (v : String × String) :
    mapAdd ((k, s) :: rest) k v = (k, setAdd s v) :: rest := by
  simp [mapAdd]

theorem mapAdd_cons_ne {k₀ k : String} (h : ¬ k₀ = k) (s : ReviewSet)
    (rest : ReviewMap) (v : String × String) :
    mapAdd ((k₀, s) :: rest) k v = (k₀, s) :: mapAdd rest k v := by
  simp [mapAdd, h]

theorem mem_keys_mapAdd {m : ReviewMap} {k x : String} {v : String × String} :
    x ∈ keys (mapAdd m k v) ↔ x ∈ keys m ∨ x = k := by
  induction m with
  | nil => simp [mapAdd, keys]
  | cons p rest ih =>
    obtain ⟨k₀, s₀⟩ := p
    by_cases hk : k₀ = k
    · subst hk
      rw [mapAdd_cons_self]
      simp only [keys, List.map_cons, List.mem_cons]
      tauto
    · rw [mapAdd_cons_ne hk]
      simp only [keys, List.map_cons, List.mem_cons] at ih ⊢
      rw [ih]
      tauto

theorem WF_mapAdd {m : ReviewMap} {k : String} {v : String × String}
    (h : WF m) : WF (mapAdd m k v) := by
  induction m with
  | nil => exact ⟨List.nodup_singleton k, by simp [mapAdd]⟩
  | cons p rest ih =>
    obtain ⟨k₀, s₀⟩ := p
    obtain ⟨hkeys, hvals⟩ := h
    simp only [keys, List.map_cons, List.nodup_cons] at hkeys
    have hrest : WF rest :=
      ⟨hkeys.2, fun e he => hvals e (List.mem_cons_of_mem _ he)⟩
    by_cases hk : k₀ = k
    · subst hk
      rw [mapAdd_cons_self]
      refine ⟨?_, ?_⟩
      · simp only [keys, List.map_cons, List.nodup_cons]
        exact hkeys
      · intro e he
        rcases List.mem_cons.mp he with rfl | he
        · exact nodup_setAdd (hvals (k₀, s₀) (List.mem_cons_self _ _))
        · exact hvals e (List.mem_cons_of_mem _ he)
    · rw [mapAdd_cons_ne hk]
      have ihrest := ih hrest
      refine ⟨?_, ?_⟩
      · simp only [keys, List.map_cons, List.nodup_cons]
        refine ⟨?_, ihrest.1⟩
        intro hmem
        rcases mem_keys_mapAdd.mp hmem with h₁ | rfl
        · exact hkeys.1 h₁
        · exact hk rfl
      · intro e he
        rcases List.mem_cons.mp he with rfl | he
        · exact hvals (k₀, s₀) (List.mem_cons_self _ _)
        · exact ihrest.2 e he

theorem WF_foldl {α : Type} (f : ReviewMap → α → ReviewMap)
    (hf : ∀ m x, WF m → WF (f m x)) :
    ∀ (l : List α) (m : ReviewMap), WF m → WF (l.foldl f m) := by
  intro l
  induction l with
  | nil => intro m hm; exact hm
  | cons x l ih => intro m hm; exact ih (f m x) (hf m x hm)

theorem WF_processPull {now pr_age : Int} {m : ReviewMap} {pull : PullRequest}
    (h : WF m) : WF (processPull now pr_age m pull) := by
  unfold processPull
  split
  · exact h
  · split
    · exact WF_foldl (fun acc a => mapAdd acc a (pull.title, pull.html_url))
        (fun _ _ hm => WF_mapAdd hm) _ m h
    · exact h

theorem WF_processRepo {now pr_age : Int} {m : ReviewMap} {repo : Repository}
    (h : WF m) : WF (processRepo now pr_age m repo) :=
  WF_foldl (processPull now pr_age) (fun _ _ hm => WF_processPull hm) _ m h

theorem WF_get_reviews (teams : List Team) (now pr_age : Int)
    (name_filter : List Char) : WF (get_reviews teams now pr_age name_filter) :=
  WF_foldl (processRepo now pr_age) (fun _ _ hm => WF_processRepo hm) _ []
    ⟨List.nodup_nil, by simp⟩

/-! ## Lemmas about `startswith` and the diff text -/

theorem startswith_nil (l : List Char) : startswith l [] = true := by
  cases l <;> rfl

theorem startswith_single {c p : Char} {cs : List Char} :
    startswith (c :: cs) [p] = (c == p) := by
  simp [startswith, startswith_nil]

theorem containsEscNL_cons {c : Char} {l : List Char}
    (h : c ≠ '\\' ∨ l.head? ≠ some 'n') :
    containsEscNL (c :: l) = containsEscNL l := by
  cases l with
  | nil => rfl
  | cons x xs =>
    simp only [containsEscNL]
    rcases h with h | h
    · simp [h]
    · simp only [List.head?] at h
      have hx : ¬ x = 'n' := fun e => h (by rw [e])
      simp [hx]

theorem head?_replaceEscapedNewlines (c : Char) (l : List Char) :
    (replaceEscapedNewlines (c :: l)).head? = some c ∨
      (replaceEscapedNewlines (c :: l)).head? = some '\n' := by
  cases l with
  | nil => exact Or.inl rfl
  | cons x xs =>
    by_cases h : c = '\\' ∧ x = 'n'
    · rw [replaceEscapedNewlines, if_pos h]
      exact Or.inr rfl
    · rw [replaceEscapedNewlines, if_neg h]
      exact Or.inl rfl

theorem newline_mem_replaceEscapedNewlines {l : List Char}
    (h : containsEscNL l = true) : '\n' ∈ replaceEscapedNewlines l := by
  induction l using twoStepRecursion with
  | h0 => simp [containsEscNL] at h
  | h1 c => simp [containsEscNL] at h
  | h2 c₁ c₂ rest ih₁ ih₂ =>
    by_cases hc : c₁ = '\\' ∧ c₂ = 'n'
    · rw [replaceEscapedNewlines, if_pos hc]
      exact List.mem_cons_self _ _
    · rw [replaceEscapedNewlines, if_neg hc]
      refine List.mem_cons_of_mem _ (ih₂ ?_)
      rw [containsEscNL] at h
      rcases Bool.or_eq_true_iff.mp h with h | h
      · rcases Bool.and_eq_true_iff.mp h with ⟨h₁, h₂⟩
        exact absurd ⟨eq_of_beq h₁, eq_of_beq h₂⟩ hc
      · exact h

theorem not_containsEscNL_replaceEscapedNewlines (l : List Char) :
    containsEscNL (replaceEscapedNewlines l) = false := by
  induction l using twoStepRecursion with
  | h0 => rfl
  | h1 c => rfl
  | h2 c₁ c₂ rest ih₁ ih₂ =>
    by_cases hc : c₁ = '\\' ∧ c₂ = 'n'
    · rw [replaceEscapedNewlines, if_pos hc]
      rw [containsEscNL_cons (Or.inl (by decide))]
      exact ih₁
    · rw [replaceEscapedNewlines, if_neg hc]
      rw [containsEscNL_cons ?_]
      · exact ih₂
      · by_cases hb : c₁ = '\\'
        · refine Or.inr ?_
          have hn : ¬ c₂ = 'n' := fun e => hc ⟨hb, e⟩
          rcases head?_replaceEscapedNewlines c₂ rest with h | h
          · rw [h]
            intro e
            exact hn (by injection e)
          · rw [h]
            intro e
            have : '\n' = 'n' := by injection e
            exact absurd this (by decide)
        · exact Or.inl hb

/-! ## Lemmas about credential resolution -/

theorem creds_of_truthy {token : Option String} {env : String → Option String}
    (h : pyTruthy token = true) : _get_credentials token env = token := by
  unfold _get_credentials pyOr
  rw [if_pos h, if_pos h]

theorem creds_of_falsy {token : Option String} {env : String → Option String}
    (h : pyTruthy token = false) :
    _get_credentials token env =
      if pyTruthy (env GH_TOKEN_ENV_KEY) = true then env GH_TOKEN_ENV_KEY
      else none := by
  unfold _get_credentials pyOr
  rw [show (if pyTruthy token = true then token else env GH_TOKEN_ENV_KEY)
      = env GH_TOKEN_ENV_KEY from if_neg (by simp [h])]

/-! ## The claims -/

/-- C1: in `get_reviews`, an open pull request whose assignee set exactly
equals the author singleton is skipped (its processing leaves the map
unchanged, regardless of age); any other open pull request of a kept
team's repository that passes the age check gets `(title, html_url)`
inserted into the ReviewMap entry of every login in its assignee set. -/
theorem c1_self_review_skip_and_assignee_fanout
    (teams : List Team) (now pr_age : Int) (name_filter : List Char)
    (team : Team) (hteam : team ∈ teams)
    (hname : startswith team.name name_filter = true)
    (repo : Repository) (hrepo : repo ∈ team.repositories)
    (pull : PullRequest) (hpull : pull ∈ repo.pull_requests)
    (hopen : pull.state = "open") :
    (eqSet [pull.user_login] (assigneeSet pull) = true →
      ∀ m : ReviewMap, processPull now pr_age m pull = m) ∧
    (eqSet [pull.user_login] (assigneeSet pull) = false →
      now - pull.updated_at > pr_age →
      ∀ a ∈ pull.assignees,
        (pull.title, pull.html_url) ∈
          lookup (get_reviews teams now pr_age name_filter) a) := by
  constructor
  · intro h m
    exact processPull_skip_of_self h
  · intro hne hage a ha
    exact mem_lookup_get_reviews.mpr
      ⟨team, hteam, hname, repo, hrepo, pull, hpull, hopen,
        List.mem_dedup.mpr ha, hne, hage, rfl⟩

theorem c1_witness :
    processPull 100000 72000 [] ⟨"T", "u", "alice", ["alice"], 0, "open"⟩ = [] ∧
    ("Fix bug", "u") ∈
      lookup
        (get_reviews
          [⟨['C'],
            [⟨0, [⟨"T", "u", "alice", ["alice"], 0, "open"⟩,
                  ⟨"Fix bug", "u", "alice", ["alice", "bob"], 0, "open"⟩]⟩]⟩]
          100000 72000 [])
        "bob" := by
  constructor
  · exact (c1_self_review_skip_and_assignee_fanout
      [⟨['C'], [⟨0, [⟨"T", "u", "alice", ["alice"], 0, "open"⟩,
        ⟨"Fix bug", "u", "alice", ["alice", "bob"], 0, "open"⟩]⟩]⟩]
      100000 72000 []
      ⟨['C'], [⟨0, [⟨"T", "u", "alice", ["alice"], 0, "open"⟩,
        ⟨"Fix bug", "u", "alice", ["alice", "bob"], 0, "open"⟩]⟩]⟩
      (by decide) (by decide)
      ⟨0, [⟨"T", "u", "alice", ["alice"], 0, "open"⟩,
        ⟨"Fix bug", "u", "alice", ["alice", "bob"], 0, "open"⟩]⟩
      (by decide)
      ⟨"T", "u", "alice", ["alice"], 0, "open"⟩ (by decide) rfl).1 rfl []
  · exact (c1_self_review_skip_and_assignee_fanout
      [⟨['C'], [⟨0, [⟨"T", "u", "alice", ["alice"], 0, "open"⟩,
        ⟨"Fix bug", "u", "alice", ["alice", "bob"], 0, "open"⟩]⟩]⟩]
      100000 72000 []
      ⟨['C'], [⟨0, [⟨"T", "u", "alice", ["alice"], 0, "open"⟩,
        ⟨"Fix bug", "u", "alice", ["alice", "bob"], 0, "open"⟩]⟩]⟩
      (by decide) (by decide)
      ⟨0, [⟨"T", "u", "alice", ["alice"], 0, "open"⟩,
        ⟨"Fix bug", "u", "alice", ["alice", "bob"], 0, "open"⟩]⟩
      (by decide)
      ⟨"Fix bug", "u", "alice", ["alice", "bob"], 0, "open"⟩ (by decide) rfl).2
      rfl (by decide) "bob" (by decide)

/-- C2: for an open pull request whose assignee set is not the author
singleton, the pair is recorded for each assignee when the elapsed time
strictly exceeds `pr_age`; when the elapsed time is at most `pr_age`
(the boundary case included), processing the pull request leaves the map
unchanged, and the pull request alone puts the pair in an assignee's entry
exactly when the elapsed time strictly exceeds `pr_age`. -/
theorem c2_age_threshold_filter
    (teams : List Team) (now pr_age : Int) (name_filter : List Char)
    (team : Team) (hteam : team ∈ teams)
    (hname : startswith team.name name_filter = true)
    (repo : Repository) (hrepo : repo ∈ team.repositories)
    (pull : PullRequest) (hpull : pull ∈ repo.pull_requests)
    (hopen : pull.state = "open")
    (hne : eqSet [pull.user_login] (assigneeSet pull) = false) :
    (∀ a ∈ pull.assignees,
      ((pull.title, pull.html_url) ∈ lookup (processPull now pr_age [] pull) a ↔
        now - pull.updated_at > pr_age)) ∧
    (now - pull.updated_at > pr_age →
      ∀ a ∈ pull.assignees,
        (pull.title, pull.html_url) ∈
          lookup (get_reviews teams now pr_age name_filter) a) ∧
    (now - pull.updated_at ≤ pr_age →
      ∀ m : ReviewMap, processPull now pr_age m pull = m) := by
  refine ⟨?_, ?_, ?_⟩
  · intro a ha
    rw [mem_lookup_processPull]
    constructor
    · rintro (h | ⟨-, -, hage, -⟩)
      · simp [lookup] at h
      · exact hage
    · intro hage
      exact Or.inr ⟨List.mem_dedup.mpr ha, hne, hage, rfl⟩
  · intro hage a ha
    exact mem_lookup_get_reviews.mpr
      ⟨team, hteam, hname, repo, hrepo, pull, hpull, hopen,
        List.mem_dedup.mpr ha, hne, hage, rfl⟩
  · intro hage m
    exact processPull_skip_of_young hage

theorem c2_witness :
    (("Fix bug", "u") ∈
      lookup (processPull 100000 72000 []
        ⟨"Fix bug", "u", "alice", ["bob"], 0, "open"⟩) "bob" ↔
      (100000 : Int) - 0 > 72000) ∧
    processPull 100000 172000 []
      ⟨"Fix bug", "u", "alice", ["bob"], 28000, "open"⟩ = [] := by
  constructor
  · exact (c2_age_threshold_filter
      [⟨['C'], [⟨0, [⟨"Fix bug", "u", "alice", ["bob"], 0, "open"⟩]⟩]⟩]
      100000 72000 []
      ⟨['C'], [⟨0, [⟨"Fix bug", "u", "alice", ["bob"], 0, "open"⟩]⟩]⟩
      (by decide) (by decide)
      ⟨0, [⟨"Fix bug", "u", "alice", ["bob"], 0, "open"⟩]⟩ (by decide)
      ⟨"Fix bug", "u", "alice", ["bob"], 0, "open"⟩ (by decide) rfl rfl).1
      "bob" (by decide)
  · exact (c2_age_threshold_filter
      [⟨['C'], [⟨0, [⟨"Fix bug", "u", "alice", ["bob"], 28000, "open"⟩]⟩]⟩]
      100000 172000 []
      ⟨['C'], [⟨0, [⟨"Fix bug", "u", "alice", ["bob"], 28000, "open"⟩]⟩]⟩
      (by decide) (by decide)
      ⟨0, [⟨"Fix bug", "u", "alice", ["bob"], 28000, "open"⟩]⟩ (by decide)
      ⟨"Fix bug", "u", "alice", ["bob"], 28000, "open"⟩ (by decide) rfl rfl).2.2
      (by decide) []

/-- C3: every pair recorded in the ReviewMap produced by `get_reviews`
comes from an open pull request of a kept team's repository whose assignee
set is non-empty (the recording login belongs to it), is not exactly the
author singleton, and whose age strictly exceeds the threshold; moreover
the map holds each login as at most one key, and each entry is a
duplicate-free set of `(title, url)` pairs. -/
theorem c3_reviewmap_invariants
    (teams : List Team) (now pr_age : Int) (name_filter : List Char) :
    (∀ a w, w ∈ lookup (get_reviews teams now pr_age name_filter) a →
      ∃ t ∈ teams, ∃ r ∈ t.repositories, ∃ p ∈ r.pull_requests,
        p.state = "open" ∧ p.assignees ≠ [] ∧
        eqSet [p.user_login] (assigneeSet p) = false ∧
        now - p.updated_at > pr_age ∧ a ∈ assigneeSet p ∧
        w = (p.title, p.html_url)) ∧
    (keys (get_reviews teams now pr_age name_filter)).Nodup ∧
    (∀ e ∈ get_reviews teams now pr_age name_filter, (Prod.snd e).Nodup) := by
  refine ⟨?_, (WF_get_reviews teams now pr_age name_filter).1,
    (WF_get_reviews teams now pr_age name_filter).2⟩
  intro a w hw
  obtain ⟨t, ht, -, r, hr, p, hp, hopen, hmem, hne, hage, hw'⟩ :=
    mem_lookup_get_reviews.mp hw
  refine ⟨t, ht, r, hr, p, hp, hopen, ?_, hne, hage, hmem, hw'⟩
  exact List.ne_nil_of_mem (List.mem_dedup.mp hmem)

/-- C4: `is_changed_diff_line` returns true exactly when the line's first
character is `+` or `-` (so the `+++`/`---` file-header lines qualify),
and it returns false on the empty string. -/
theorem c4_changed_diff_line_iff (line : List Char) :
    (is_changed_diff_line line = true ↔
      line.head? = some '+' ∨ line.head? = some '-') ∧
    is_changed_diff_line [] = false := by
  refine ⟨?_, rfl⟩
  cases line with
  | nil => simp [is_changed_diff_line, startswith]
  | cons c cs =>
    simp [is_changed_diff_line, startswith_single, List.head?]

/-- C7: `get_reviews` keeps exactly the teams whose name starts with the
given filter (the empty filter keeps every team), and the repositories it
enumerates are exactly the union of the kept teams' repositories,
deduplicated, so each repository occurs at most once. -/
theorem c7_team_filter_and_repo_union
    (teams : List Team) (name_filter : List Char) :
    (∀ t, t ∈ keptTeams teams name_filter ↔
      t ∈ teams ∧ startswith t.name name_filter = true) ∧
    (∀ t ∈ teams, t ∈ keptTeams teams []) ∧
    (∀ r, r ∈ reposOf teams name_filter ↔
      ∃ t ∈ keptTeams teams name_filter, r ∈ t.repositories) ∧
    (reposOf teams name_filter).Nodup := by
  refine ⟨fun t => mem_keptTeams, ?_, ?_, List.nodup_dedup _⟩
  · intro t ht
    exact mem_keptTeams.mpr ⟨ht, startswith_nil t.name⟩
  · intro r
    rw [mem_reposOf]
    constructor
    · rintro ⟨t, ht, hs, hr⟩
      exact ⟨t, mem_keptTeams.mpr ⟨ht, hs⟩, hr⟩
    · rintro ⟨t, ht, hr⟩
      obtain ⟨ht', hs⟩ := mem_keptTeams.mp ht
      exact ⟨t, ht', hs, hr⟩

/-- C8: normalizing a diff that contains the escaped-newline sequence
yields text that contains a literal newline, and the normalized text never
contains the escape sequence, whatever the input was. -/
theorem c8_escaped_newline_normalization (diff : List Char) :
    (containsEscNL diff = true → '\n' ∈ replaceEscapedNewlines diff) ∧
    containsEscNL (replaceEscapedNewlines diff) = false :=
  ⟨fun h => newline_mem_replaceEscapedNewlines h,
    not_containsEscNL_replaceEscapedNewlines diff⟩

/-- C9: on the concrete organization with one team `Core` owning one
repository with one open PR titled "Fix bug" at any url, assignees
`{bob}`, author `alice`, age 100000 s against threshold 72000 s,
`get_reviews` returns exactly `{bob ↦ {("Fix bug", url)}}`. -/
theorem c9_concrete_example (url : String) :
    get_reviews
        [⟨"Core".toList,
          [⟨0, [⟨"Fix bug", url, "alice", ["bob"], 0, "open"⟩]⟩]⟩]
        100000 72000 []
      = [("bob", [("Fix bug", url)])] := rfl

/-- C10: `assign_pr` with `keep_current = true` makes the PR's assignee
set exactly the union of the current assignees and the provided users (so
it never removes an existing assignee); with `keep_current = false` the
resulting assignee set is exactly the provided users. -/
theorem c10_assign_pr_keep_current
    (pr : IssueState) (users : List String) (a : String) :
    (a ∈ (assign_pr pr users true).assignees ↔
      a ∈ pr.assignees ∨ a ∈ users) ∧
    (a ∈ (assign_pr pr users false).assignees ↔ a ∈ users) := by
  unfold assign_pr IssueState.edit
  constructor
  · simp
  · simp

/-- C5 counterexample: a request that receives HTTP 304 — a status that is
not 2xx — returns the response normally instead of raising, because
`raise_for_status` only raises for 4xx/5xx statuses. -/
theorem c5_counterexample :
    GHPRSession.request ⟨"https://g/api/", fun _ _ => ⟨304, ""⟩⟩ "GET" "comments"
        = Except.ok ⟨304, ""⟩ ∧
    ¬ is2xx 304 := by
  constructor
  · rfl
  · intro h
    exact absurd h.2 (by decide)

/-- C5 (amended): every request issued through a `GHPRSession` (including
`post_comment`) is placed exactly once and raises immediately iff the
response status is a 4xx or 5xx error; in particular any 2xx response is
returned normally. -/
theorem c5_raise_for_error_statuses (s : GHPRSession) (method url : String) :
    ((∃ e, s.request method url = Except.error e) ↔
      400 ≤ (s.send method (urljoin s.base_url url)).status ∧
        (s.send method (urljoin s.base_url url)).status < 600) ∧
    (is2xx (s.send method (urljoin s.base_url url)).status →
      s.request method url = Except.ok (s.send method (urljoin s.base_url url))) ∧
    (∀ body, s.post_comment body = s.request "POST" "comments") := by
  refine ⟨?_, ?_, fun _ => rfl⟩
  · unfold GHPRSession.request raise_for_status
    split
    · rename_i h
      exact ⟨fun _ => h, fun _ => ⟨_, rfl⟩⟩
    · rename_i h
      constructor
      · rintro ⟨e, he⟩
        exact absurd he (by simp)
      · intro h'
        exact absurd h' h
  · intro h2
    obtain ⟨h200, hlt⟩ := h2
    unfold GHPRSession.request raise_for_status
    rw [if_neg]
    rintro ⟨h400, -⟩
    omega

/-- C6 counterexample: with an explicitly supplied (but empty) token
argument, credential resolution ignores the argument: with an environment
token present it returns the environment token rather than the supplied
argument, and with no environment token it fails even though an argument
was supplied. -/
theorem c6_counterexample :
    _get_credentials (some "") (fun _ => none) = none ∧
    (some "" : Option String) ≠ none ∧
    _get_credentials (some "")
        (fun k => if k = GH_TOKEN_ENV_KEY then some "envtok" else none)
      = some "envtok" ∧
    some "envtok" ≠ some "" := by
  refine ⟨rfl, by simp, rfl, by simp⟩

/-- C6 (amended): credential resolution fails fatally iff the token
argument is absent or empty and the environment value under `GH_TOKEN` is
absent or empty; a non-empty token argument is returned and takes
precedence over the environment, and otherwise a non-empty environment
token is returned (an empty token argument is treated as absent). -/
theorem c6_credential_resolution (token : Option String)
    (env : String → Option String) :
    (_get_credentials token env = none ↔
      pyTruthy token = false ∧ pyTruthy (env GH_TOKEN_ENV_KEY) = false) ∧
    (pyTruthy token = true → _get_credentials token env = token) ∧
    (pyTruthy token = false → pyTruthy (env GH_TOKEN_ENV_KEY) = true →
      _get_credentials token env = env GH_TOKEN_ENV_KEY) := by
  by_cases ht : pyTruthy token = true
  · simp only [creds_of_truthy ht]
    refine ⟨?_, fun _ => by trivial, fun h _ => absurd ht (by simp [h])⟩
    constructor
    · intro h
      rw [h] at ht
      simp [pyTruthy] at ht
    · rintro ⟨h, -⟩
      rw [h] at ht
      simp at ht
  · have ht' : pyTruthy token = false := by
      cases hb : pyTruthy token
      · rfl
      · exact absurd hb ht
    simp only [creds_of_falsy ht']
    by_cases he : pyTruthy (env GH_TOKEN_ENV_KEY) = true
    · simp only [if_pos he]
      refine ⟨?_, fun h => absurd h (by simp [ht']), fun _ _ => by trivial⟩
      constructor
      · intro h
        rw [h] at he
        simp [pyTruthy] at he
      · rintro ⟨-, h⟩
        rw [h] at he
        simp at he
    · have he' : pyTruthy (env GH_TOKEN_ENV_KEY) = false := by
        cases hb : pyTruthy (env GH_TOKEN_ENV_KEY)
        · rfl
        · exact absurd hb he
      simp only [if_neg he]
      exact ⟨⟨fun _ => ⟨ht', he'⟩, fun _ => by trivial⟩,
        fun h => absurd h (by simp [ht']),
        fun _ h => absurd h (by simp [he'])⟩

end GithubTools
